import Mathlib

/-!
# Verification of the otisign signing & integrity protocol core

Shallow embedding of the core of the `ciphernom/otisign` repository
(`src/js/crypto.js`, `src/js/state.js` (the `Merkle` module), `src/js/bundle.js`)
and proofs of the specification claims about it.

Modelling conventions:
* a JS `Uint8Array` is a `List Nat` whose entries are `< 256`;
* a JS string is a `String` / `List Char` (JS code points; all strings handled
  here are ASCII, where JS UTF-16 order and Lean `Char` order agree);
* the SHA-256 primitive `crypto.subtle.digest` is an external platform
  collaborator, not repository code: it is a parameter `H` of the Merkle
  definitions, and tamper-detection statements carry an explicit
  hash-collision escape clause instead of an (unsatisfiable) injectivity
  assumption;
* the vendor library TweetNaCl (`nacl.sign.*`) and the platform PBKDF2 are
  likewise not in the repository; they are modelled from the spec, see the
  `Modelled from the spec:` doc comments.
-/

namespace Otisign

/-- A JS `Uint8Array` cell value: every entry is a byte. -/
def IsBytes (l : List Nat) : Prop := ∀ b ∈ l, b < 256

instance (l : List Nat) : Decidable (IsBytes l) := by
  unfold IsBytes; infer_instance

/-- A 32-byte hash value (leaf / node of the Merkle tree). -/
def Is32 (l : List Nat) : Prop := l.length = 32 ∧ IsBytes l

instance (l : List Nat) : Decidable (Is32 l) := by
  unfold Is32; infer_instance

/-! ## Hex encoding (`crypto.js` `bytesToHex` / `hexToBytes`) -/

/-- JS `padStart(2, '0')` on a string. -/
def padStart2 (l : List Char) : List Char :=
  if l.length ≥ 2 then l else List.replicate (2 - l.length) '0' ++ l

/-- One byte of `crypto.js bytesToHex`: `b.toString(16).padStart(2, '0')`.
`Nat.toDigits 16` is exactly JS `Number.prototype.toString(16)` on naturals
(lowercase digits, no leading zeros). -/
def byteToHex (b : Nat) : List Char :=
  padStart2 (Nat.toDigits 16 b)

/-- Source `crypto.js bytesToHex`: map each byte and join. -/
def bytesToHex (l : List Nat) : List Char :=
  (l.map byteToHex).flatten

/-- JS string comparison `<` (used by `hashNodes`): lexicographic on code
units; a strict prefix is smaller. -/
def lexLt : List Char → List Char → Bool
  | [], [] => false
  | [], _ :: _ => true
  | _ :: _, [] => false
  | a :: as, b :: bs =>
      if a.toNat < b.toNat then true
      else if b.toNat < a.toNat then false
      else lexLt as bs

/-- Hex digit value accepted by `parseInt(_, 16)`: `0`-`9` (codes 48-57),
`a`-`f` (97-102), `A`-`F` (65-70). -/
def hexVal? (c : Char) : Option Nat :=
  if 48 ≤ c.toNat ∧ c.toNat ≤ 57 then some (c.toNat - 48)
  else if 97 ≤ c.toNat ∧ c.toNat ≤ 102 then some (c.toNat - 97 + 10)
  else if 65 ≤ c.toNat ∧ c.toNat ≤ 70 then some (c.toNat - 65 + 10)
  else none

/-- JS `parseInt(s, 16)` on a two-character substring, as stored into a
`Uint8Array` cell: an unparsable string gives `NaN`, which the typed array
coerces to `0`; a string whose second character is not a hex digit parses
only its first digit. -/
def parseIntHex2 (c1 c2 : Char) : Nat :=
  match hexVal? c1 with
  | none => 0
  | some v1 =>
    match hexVal? c2 with
    | none => v1
    | some v2 => 16 * v1 + v2

/-- Source `crypto.js hexToBytes`: `hex.length / 2` bytes, each from a 2-char
substring (a trailing odd character is dropped by the length division). -/
def hexToBytes : List Char → List Nat
  | [] => []
  | [_] => []
  | c1 :: c2 :: rest => parseIntHex2 c1 c2 :: hexToBytes rest

/-! ### Hex lemmas -/

set_option maxRecDepth 4000 in
theorem byteToHex_eq (b : Nat) (hb : b < 256) :
    byteToHex b = [Nat.digitChar (b / 16), Nat.digitChar (b % 16)] := by
  revert hb
  exact fun hb => (by decide : ∀ b' : Fin 256,
    byteToHex b'.val = [Nat.digitChar (b'.val / 16), Nat.digitChar (b'.val % 16)]) ⟨b, hb⟩

theorem digitChar_inj {a b : Nat} (ha : a < 16) (hb : b < 16)
    (h : Nat.digitChar a = Nat.digitChar b) : a = b := by
  revert h
  exact fun h => (by decide : ∀ a' b' : Fin 16,
    Nat.digitChar a'.val = Nat.digitChar b'.val → a'.val = b'.val) ⟨a, ha⟩ ⟨b, hb⟩ h

theorem hexVal?_digitChar (v : Nat) (hv : v < 16) :
    hexVal? (Nat.digitChar v) = some v := by
  revert hv
  exact fun hv => (by decide : ∀ v' : Fin 16,
    hexVal? (Nat.digitChar v'.val) = some v'.val) ⟨v, hv⟩

theorem bytesToHex_cons (b : Nat) (l : List Nat) :
    bytesToHex (b :: l) = byteToHex b ++ bytesToHex l := by
  simp [bytesToHex]

theorem bytesToHex_inj {l l' : List Nat} (h : IsBytes l) (h' : IsBytes l')
    (he : bytesToHex l = bytesToHex l') : l = l' := by
  induction l generalizing l' with
  | nil =>
    cases l' with
    | nil => rfl
    | cons b t =>
      exfalso
      rw [bytesToHex_cons, byteToHex_eq b (h' b (by simp))] at he
      simp [bytesToHex] at he
  | cons b t ih =>
    cases l' with
    | nil =>
      exfalso
      rw [bytesToHex_cons, byteToHex_eq b (h b (by simp))] at he
      simp [bytesToHex] at he
    | cons b' t' =>
      rw [bytesToHex_cons, bytesToHex_cons,
          byteToHex_eq b (h b (by simp)), byteToHex_eq b' (h' b' (by simp))] at he
      simp only [List.cons_append, List.nil_append, List.cons.injEq] at he
      obtain ⟨h1, h2, h3⟩ := he
      have hb : b < 256 := h b (by simp)
      have hb' : b' < 256 := h' b' (by simp)
      have e1 : b / 16 = b' / 16 := digitChar_inj (by omega) (by omega) h1
      have e2 : b % 16 = b' % 16 := digitChar_inj (by omega) (by omega) h2
      have : b = b' := by omega
      subst this
      exact congrArg (b :: ·)
        (ih (fun x hx => h x (by simp [hx])) (fun x hx => h' x (by simp [hx])) h3)

theorem hexToBytes_bytesToHex {l : List Nat} (h : IsBytes l) :
    hexToBytes (bytesToHex l) = l := by
  induction l with
  | nil => rfl
  | cons b t ih =>
    have hb : b < 256 := h b (by simp)
    rw [bytesToHex_cons, byteToHex_eq b hb]
    show hexToBytes (Nat.digitChar (b / 16) :: Nat.digitChar (b % 16) :: bytesToHex t) = b :: t
    rw [hexToBytes]
    rw [parseIntHex2, hexVal?_digitChar _ (by omega), hexVal?_digitChar _ (by omega)]
    simp only
    have : 16 * (b / 16) + b % 16 = b := by omega
    rw [this]
    exact congrArg (b :: ·) (ih (fun x hx => h x (by simp [hx])))

theorem hexVal?_lt {c : Char} {v : Nat} (h : hexVal? c = some v) : v < 16 := by
  unfold hexVal? at h
  split_ifs at h <;> injection h with hv <;> omega

theorem parseIntHex2_lt (c1 c2 : Char) : parseIntHex2 c1 c2 < 256 := by
  unfold parseIntHex2
  split
  · omega
  · rename_i v1 h1
    have hv1 := hexVal?_lt h1
    split
    · omega
    · rename_i v2 h2
      have hv2 := hexVal?_lt h2
      omega

theorem hexToBytes_isBytes (s : List Char) : IsBytes (hexToBytes s) := by
  induction s using hexToBytes.induct with
  | case1 => intro b hb; simp [hexToBytes] at hb
  | case2 c => intro b hb; simp [hexToBytes] at hb
  | case3 c1 c2 rest ih =>
    intro b hb
    rw [hexToBytes] at hb
    rcases List.mem_cons.mp hb with h | h
    · rw [h]; exact parseIntHex2_lt c1 c2
    · exact ih b h

theorem bytesToHex_length {l : List Nat} (h : IsBytes l) :
    (bytesToHex l).length = 2 * l.length := by
  induction l with
  | nil => rfl
  | cons b t ih =>
    rw [bytesToHex_cons, byteToHex_eq b (h b (by simp))]
    simp only [List.length_append, List.length_cons, List.length_nil]
    rw [ih (fun x hx => h x (by simp [hx]))]
    simp; omega

theorem hexToBytes_length (s : List Char) :
    (hexToBytes s).length = s.length / 2 := by
  induction s using hexToBytes.induct with
  | case1 => rfl
  | case2 c => simp [hexToBytes]
  | case3 c1 c2 rest ih =>
    rw [hexToBytes]
    simp only [List.length_cons, ih]
    omega

theorem char_eq_of_toNat_eq {a b : Char} (h : a.toNat = b.toNat) : a = b := by
  have := Char.ofNat_toNat a
  rw [h, Char.ofNat_toNat] at this
  exact this.symm

theorem lexLt_asymm {a b : List Char} (h : lexLt a b = true) : lexLt b a = false := by
  induction a generalizing b with
  | nil =>
    cases b with
    | nil => simp [lexLt] at h
    | cons y ys => simp [lexLt]
  | cons x xs ih =>
    cases b with
    | nil => simp [lexLt] at h
    | cons y ys =>
      by_cases h1 : x.toNat < y.toNat
      · have h2 : ¬ y.toNat < x.toNat := by omega
        simp [lexLt, h1, h2]
      · by_cases h2 : y.toNat < x.toNat
        · simp [lexLt, h1, h2] at h
        · simp [lexLt, h1, h2] at h ⊢
          exact ih h

theorem lexLt_total_eq {a b : List Char} (hab : lexLt a b = false)
    (hba : lexLt b a = false) : a = b := by
  induction a generalizing b with
  | nil =>
    cases b with
    | nil => rfl
    | cons y ys => simp [lexLt] at hab
  | cons x xs ih =>
    cases b with
    | nil => simp [lexLt] at hba
    | cons y ys =>
      by_cases h1 : x.toNat < y.toNat
      · simp [lexLt, h1] at hab
      · by_cases h2 : y.toNat < x.toNat
        · simp [lexLt, h1, h2] at hba
        · have hxy : x = y := char_eq_of_toNat_eq (by omega)
          subst hxy
          simp [lexLt, h1] at hab hba
          exact congrArg (x :: ·) (ih hab hba)

/-! ## Merkle commitment (`state.js`, module `Merkle`)

`Merkle.hash` is `crypto.subtle.digest('SHA-256', _)`, an external platform
primitive; it appears below as the abstract parameter `H`. -/

/-- The `combined` buffer of `Merkle.hashNodes`: the two inputs concatenated
with the lexicographically smaller hex representation first. -/
def combined (left right : List Nat) : List Nat :=
  if lexLt (bytesToHex left) (bytesToHex right) then left ++ right else right ++ left

/-- Source `Merkle.hashNodes`: hash of the content-ordered concatenation. -/
def hashNodes (H : List Nat → List Nat) (left right : List Nat) : List Nat :=
  H (combined left right)

/-- One pass of the `while` loop body of `Merkle.buildTree`: hash adjacent
pairs, promote an odd trailing node unchanged. -/
def pairUp (H : List Nat → List Nat) : List (List Nat) → List (List Nat)
  | a :: b :: rest => hashNodes H a b :: pairUp H rest
  | [a] => [a]
  | [] => []

/-- The `while (current.length > 1)` loop of `Merkle.buildTree`, returning the
list of layers pushed after the leaf layer.  The loop strictly shrinks
`current`, so running it with `fuel = current.length` runs it to completion. -/
def buildLayersAux (H : List Nat → List Nat) : Nat → List (List Nat) → List (List (List Nat))
  | 0, _ => []
  | fuel + 1, current =>
    if current.length ≤ 1 then []
    else
      let next := pairUp H current
      next :: buildLayersAux H fuel next

def buildLayers (H : List Nat → List Nat) (leaves : List (List Nat)) :
    List (List (List Nat)) :=
  buildLayersAux H leaves.length leaves

structure MerkleTree where
  root : Option (List Nat)
  layers : List (List (List Nat))
deriving DecidableEq

/-- Source `Merkle.buildTree`: `{root: null, layers: []}` on no leaves, else the leaf
layer followed by the built layers, the root being the first node of the last
layer (`current[0]` at loop exit). -/
def buildTree (H : List Nat → List Nat) (leaves : List (List Nat)) : MerkleTree :=
  if leaves.isEmpty then ⟨none, []⟩
  else
    let layers := leaves :: buildLayers H leaves
    ⟨(layers.getLastD []).head?, layers⟩

/-- A `Merkle.getProof` entry: `{hash: <hex string>, position: 'left'|'right'}`. -/
structure ProofStep where
  hash : List Char
  position : String
deriving DecidableEq

/-- Source `Merkle.getProof`: walk all layers but the last, pushing the hex of the
sibling (when it exists) tagged with its side, halving the index each level. -/
def getProofAux : List (List (List Nat)) → Nat → List ProofStep
  | [], _ => []
  | [_], _ => []
  | layer :: next :: rest, idx =>
    let isRight := idx % 2 == 1
    let siblingIdx := if isRight then idx - 1 else idx + 1
    (if siblingIdx < layer.length then
      [⟨bytesToHex (layer.getD siblingIdx []), if isRight then "left" else "right"⟩]
    else []) ++ getProofAux (next :: rest) (idx / 2)

def getProof (layers : List (List (List Nat))) (index : Nat) : List ProofStep :=
  getProofAux layers index

/-- One step of the `for (const step of proof)` loop of `Merkle.verifyProof`. -/
def verifyStep (H : List Nat → List Nat) (current : List Nat) (step : ProofStep) : List Nat :=
  let sibling := hexToBytes step.hash
  if step.position = "left" then hashNodes H sibling current
  else hashNodes H current sibling

def computeRoot (H : List Nat → List Nat) (leafHash : List Nat)
    (proof : List ProofStep) : List Nat :=
  proof.foldl (verifyStep H) leafHash

/-- Source `Merkle.verifyProof` (on byte-array arguments; the `typeof === 'string'`
branches just coerce hex strings through `hexToBytes` first): recompute the
root from the leaf and compare hex representations. -/
def verifyProof (H : List Nat → List Nat) (leafHash : List Nat)
    (proof : List ProofStep) (root : List Nat) : Bool :=
  bytesToHex (computeRoot H leafHash proof) == bytesToHex root

/-- A SHA-256 collision between two distinct 64-byte buffers — the event that
any Merkle tamper-detection argument is conditional on. -/
def IsCollision64 (H : List Nat → List Nat) : Prop :=
  ∃ x y : List Nat, x.length = 64 ∧ y.length = 64 ∧ IsBytes x ∧ IsBytes y ∧
    x ≠ y ∧ H x = H y

/-! ### Merkle lemmas -/

theorem combined_comm {a b : List Nat} (ha : IsBytes a) (hb : IsBytes b) :
    combined a b = combined b a := by
  unfold combined
  cases h1 : lexLt (bytesToHex a) (bytesToHex b) with
  | true => rw [lexLt_asymm h1]; simp
  | false =>
    cases h2 : lexLt (bytesToHex b) (bytesToHex a) with
    | true => simp
    | false =>
      have : a = b := bytesToHex_inj ha hb (lexLt_total_eq h1 h2)
      subst this; simp

theorem hashNodes_comm (H : List Nat → List Nat) {a b : List Nat}
    (ha : IsBytes a) (hb : IsBytes b) :
    hashNodes H a b = hashNodes H b a :=
  congrArg H (combined_comm ha hb)

theorem combined_cases (a b : List Nat) :
    combined a b = a ++ b ∨ combined a b = b ++ a := by
  unfold combined; split <;> simp

theorem combined_length {a b : List Nat} (ha : a.length = 32) (hb : b.length = 32) :
    (combined a b).length = 64 := by
  rcases combined_cases a b with h | h <;> rw [h] <;> simp [ha, hb]

theorem combined_isBytes {a b : List Nat} (ha : IsBytes a) (hb : IsBytes b) :
    IsBytes (combined a b) := by
  rcases combined_cases a b with h | h <;> rw [h] <;>
    intro x hx <;> rcases List.mem_append.mp hx with h' | h' <;>
    first | exact ha x h' | exact hb x h'

theorem combined_ne_left {a a' b : List Nat} (ha : a.length = 32)
    (ha' : a'.length = 32) (hb : b.length = 32) (hne : a ≠ a') :
    combined a b ≠ combined a' b := by
  intro h
  rcases combined_cases a b with h1 | h1 <;> rcases combined_cases a' b with h2 | h2 <;>
    rw [h1, h2] at h
  · exact hne (List.append_inj_left h (by omega))
  · have := List.append_inj h (by omega)
    exact hne (by rw [this.1, ← this.2])
  · have := List.append_inj h (by omega)
    exact hne (by rw [this.2, ← this.1])
  · exact hne (List.append_inj_right h (by omega))

theorem combined_ne_right {a b b' : List Nat} (ha : a.length = 32)
    (hb : b.length = 32) (hb' : b'.length = 32) (hne : b ≠ b') :
    combined a b ≠ combined a b' := by
  intro h
  rcases combined_cases a b with h1 | h1 <;> rcases combined_cases a b' with h2 | h2 <;>
    rw [h1, h2] at h
  · exact hne (List.append_inj_right h (by omega))
  · have := List.append_inj h (by omega)
    exact hne (by rw [this.2, ← this.1])
  · have := List.append_inj h (by omega)
    exact hne (by rw [this.1, ← this.2])
  · exact hne (List.append_inj_left h (by omega))

/-- Distinct left operands map to equal `hashNodes` values only via a
64-byte SHA-256 collision. -/
theorem hashNodes_collision_left (H : List Nat → List Nat) {a a' b : List Nat}
    (ha : Is32 a) (ha' : Is32 a') (hb : Is32 b) (hne : a ≠ a')
    (heq : hashNodes H a b = hashNodes H a' b) : IsCollision64 H :=
  ⟨combined a b, combined a' b,
    combined_length ha.1 hb.1, combined_length ha'.1 hb.1,
    combined_isBytes ha.2 hb.2, combined_isBytes ha'.2 hb.2,
    combined_ne_left ha.1 ha'.1 hb.1 hne, heq⟩

theorem hashNodes_collision_right (H : List Nat → List Nat) {a b b' : List Nat}
    (ha : Is32 a) (hb : Is32 b) (hb' : Is32 b') (hne : b ≠ b')
    (heq : hashNodes H a b = hashNodes H a b') : IsCollision64 H :=
  ⟨combined a b, combined a b',
    combined_length ha.1 hb.1, combined_length ha.1 hb'.1,
    combined_isBytes ha.2 hb.2, combined_isBytes ha.2 hb'.2,
    combined_ne_right ha.1 hb.1 hb'.1 hne, heq⟩

theorem pairUp_getElem? (H : List Nat → List Nat) (l : List (List Nat)) (m : Nat) :
    (pairUp H l)[m]? =
      match l[2 * m]?, l[2 * m + 1]? with
      | some a, some b => some (hashNodes H a b)
      | some a, none => some a
      | none, _ => none := by
  induction l using pairUp.induct H generalizing m with
  | case1 a b rest ih =>
    cases m with
    | zero => simp [pairUp]
    | succ k =>
      have e1 : 2 * (k + 1) = 2 * k + 1 + 1 := by omega
      rw [e1]
      simpa [pairUp] using ih k
  | case2 a =>
    cases m with
    | zero => simp [pairUp]
    | succ k =>
      have e1 : 2 * (k + 1) = 2 * k + 1 + 1 := by omega
      rw [e1]
      simp [pairUp]
  | case3 => simp [pairUp]

theorem pairUp_length (H : List Nat → List Nat) (l : List (List Nat)) :
    (pairUp H l).length = (l.length + 1) / 2 := by
  induction l using pairUp.induct H with
  | case1 a b rest ih => simp [pairUp, ih]; omega
  | case2 a => simp [pairUp]
  | case3 => simp [pairUp]

theorem pairUp_is32 (H : List Nat → List Nat) (hH : ∀ x, Is32 (H x))
    {l : List (List Nat)} (hl : ∀ x ∈ l, Is32 x) :
    ∀ x ∈ pairUp H l, Is32 x := by
  induction l using pairUp.induct H with
  | case1 a b rest ih =>
    intro x hx
    rw [pairUp] at hx
    rcases List.mem_cons.mp hx with h | h
    · rw [h]; exact hH _
    · exact ih (fun y hy => hl y (by simp [hy])) x h
  | case2 a => intro x hx; rw [pairUp] at hx; exact hl x hx
  | case3 => intro x hx; rw [pairUp] at hx; simp at hx

theorem buildLayersAux_is32 (H : List Nat → List Nat) (hH : ∀ x, Is32 (H x)) :
    ∀ fuel (current : List (List Nat)), (∀ x ∈ current, Is32 x) →
    ∀ layer ∈ buildLayersAux H fuel current, ∀ x ∈ layer, Is32 x := by
  intro fuel
  induction fuel with
  | zero => intro current _ layer hlayer; simp [buildLayersAux] at hlayer
  | succ f ih =>
    intro current hcur layer hlayer
    rw [buildLayersAux] at hlayer
    split at hlayer
    · simp at hlayer
    · rcases List.mem_cons.mp hlayer with h | h
      · rw [h]; exact pairUp_is32 H hH hcur
      · exact ih (pairUp H current) (pairUp_is32 H hH hcur) layer h

theorem buildLayersAux_last_length (H : List Nat → List Nat) :
    ∀ fuel (current : List (List Nat)), current ≠ [] → current.length ≤ fuel →
    ((buildLayersAux H fuel current).getLastD current).length = 1 := by
  intro fuel
  induction fuel with
  | zero =>
    intro current hne hlen
    exact absurd (List.length_eq_zero.mp (by omega)) hne
  | succ f ih =>
    intro current hne hlen
    rw [buildLayersAux]
    split
    · rename_i h
      simp only [List.getLastD_nil]
      have : current.length = 1 := by
        rcases Nat.lt_or_ge 0 current.length with h' | h'
        · omega
        · exact absurd (List.length_eq_zero.mp (by omega)) hne
      exact this
    · rename_i h
      push_neg at h
      rw [List.getLastD_cons]
      have hplen : (pairUp H current).length = (current.length + 1) / 2 :=
        pairUp_length H current
      refine ih (pairUp H current) ?_ ?_
      · intro hnil
        have h0 : (current.length + 1) / 2 = 0 := by rw [← hplen, hnil]; rfl
        omega
      · omega

theorem computeRoot_nil (H : List Nat → List Nat) (x : List Nat) :
    computeRoot H x [] = x := rfl

theorem computeRoot_cons (H : List Nat → List Nat) (x : List Nat)
    (st : ProofStep) (rest : List ProofStep) :
    computeRoot H x (st :: rest) = computeRoot H (verifyStep H x st) rest := rfl

theorem computeRoot_append (H : List Nat → List Nat) (x : List Nat)
    (p q : List ProofStep) :
    computeRoot H x (p ++ q) = computeRoot H (computeRoot H x p) q := by
  simp [computeRoot, List.foldl_append]

theorem computeRoot_is32 (H : List Nat → List Nat) (hH : ∀ x, Is32 (H x))
    {x : List Nat} (hx : Is32 x) (proof : List ProofStep) :
    Is32 (computeRoot H x proof) := by
  induction proof generalizing x with
  | nil => exact hx
  | cons st rest ih =>
    rw [computeRoot_cons]
    refine ih ?_
    unfold verifyStep hashNodes
    split <;> exact hH _

/-- Propagating distinctness up the recomputation: distinct 32-byte starting
values either recompute to distinct values or exhibit a hash collision. -/
theorem computeRoot_ne (H : List Nat → List Nat) (hH : ∀ x, Is32 (H x)) :
    ∀ (proof : List ProofStep), (∀ st ∈ proof, Is32 (hexToBytes st.hash)) →
    ∀ {x x' : List Nat}, Is32 x → Is32 x' → x ≠ x' →
    computeRoot H x proof ≠ computeRoot H x' proof ∨ IsCollision64 H := by
  intro proof
  induction proof with
  | nil => intro _ x x' _ _ hne; exact Or.inl hne
  | cons st rest ih =>
    intro hsib x x' hx hx' hne
    have hst : Is32 (hexToBytes st.hash) := hsib st (by simp)
    by_cases hyy : verifyStep H x st = verifyStep H x' st
    · refine Or.inr ?_
      unfold verifyStep at hyy
      split at hyy
      · exact hashNodes_collision_right H hst hx hx' hne hyy
      · exact hashNodes_collision_left H hx hx' hst hne hyy
    · rw [computeRoot_cons, computeRoot_cons]
      have h32 : Is32 (verifyStep H x st) := by
        unfold verifyStep hashNodes; split <;> exact hH _
      have h32' : Is32 (verifyStep H x' st) := by
        unfold verifyStep hashNodes; split <;> exact hH _
      exact ih (fun s hs => hsib s (by simp [hs])) h32 h32' hyy

theorem getProofAux_sibling_is32 :
    ∀ (layers : List (List (List Nat))),
    (∀ layer ∈ layers, ∀ x ∈ layer, Is32 x) →
    ∀ (i : Nat), ∀ st ∈ getProofAux layers i, Is32 (hexToBytes st.hash) := by
  intro layers
  induction layers with
  | nil => intro _ i st hst; simp [getProofAux] at hst
  | cons layer rest ih =>
    intro hgood i st hst
    cases rest with
    | nil => simp [getProofAux] at hst
    | cons next rest' =>
      rw [getProofAux] at hst
      rcases List.mem_append.mp hst with h | h
      · by_cases hlt : (if (i % 2 == 1) = true then i - 1 else i + 1) < layer.length
        · rw [if_pos hlt] at h
          simp only [List.mem_singleton] at h
          subst h
          simp only
          have hmem : layer.getD (if (i % 2 == 1) = true then i - 1 else i + 1) [] ∈ layer := by
            rw [List.getD_eq_getElem?_getD, List.getElem?_eq_getElem hlt]
            exact List.getElem_mem _
          have h32 : Is32 (layer.getD (if (i % 2 == 1) = true then i - 1 else i + 1) []) :=
            hgood layer (by simp) _ hmem
          rw [hexToBytes_bytesToHex h32.2]
          exact h32
        · rw [if_neg hlt] at h; simp at h
      · exact ih (fun l hl => hgood l (by simp [hl])) (i / 2) st h

theorem verifyStep_is32 (H : List Nat → List Nat) (hH : ∀ x, Is32 (H x))
    (x : List Nat) (st : ProofStep) : Is32 (verifyStep H x st) := by
  unfold verifyStep hashNodes; split <;> exact hH _

theorem list_set_split {α} : ∀ (l : List α) (n : Nat) (a : α), n < l.length →
    l.set n a = l.take n ++ a :: l.drop (n + 1) := by
  intro l
  induction l with
  | nil => intro n a h; simp at h
  | cons x t ih =>
    intro n a h
    cases n with
    | zero => simp
    | succ k =>
      simp only [List.set_cons_succ, List.take_succ_cons, List.drop_succ_cons,
        List.cons_append, List.cons.injEq, true_and]
      exact ih k a (by simpa using h)

theorem list_split_at {α} : ∀ (l : List α) (n : Nat) (h : n < l.length),
    l = l.take n ++ l[n] :: l.drop (n + 1) := by
  intro l
  induction l with
  | nil => intro n h; simp at h
  | cons x t ih =>
    intro n h
    cases n with
    | zero => simp
    | succ k =>
      simp only [List.take_succ_cons, List.drop_succ_cons, List.getElem_cons_succ,
        List.cons_append, List.cons.injEq, true_and]
      exact ih k (by simpa using h)

theorem getProofAux_step_even (layer next : List (List Nat))
    (rest : List (List (List Nat))) {i : Nat} (h : i % 2 = 0) :
    getProofAux (layer :: next :: rest) i =
      (if i + 1 < layer.length then
        [⟨bytesToHex (layer.getD (i + 1) []), "right"⟩]
      else []) ++ getProofAux (next :: rest) (i / 2) := by
  rw [getProofAux]; simp [h]

theorem getProofAux_step_odd (layer next : List (List Nat))
    (rest : List (List (List Nat))) {i : Nat} (h : i % 2 = 1) :
    getProofAux (layer :: next :: rest) i =
      (if i - 1 < layer.length then
        [⟨bytesToHex (layer.getD (i - 1) []), "left"⟩]
      else []) ++ getProofAux (next :: rest) (i / 2) := by
  rw [getProofAux]; simp [h]

/-- Walking up the layers: the value recomputed from node `i` of `current`
through `getProofAux` is the head of the last layer. -/
theorem computeRoot_getProofAux (H : List Nat → List Nat) (hH : ∀ x, Is32 (H x)) :
    ∀ fuel (current : List (List Nat)), current.length ≤ fuel →
    (∀ x ∈ current, Is32 x) →
    ∀ i (hi : i < current.length),
      computeRoot H current[i] (getProofAux (current :: buildLayersAux H fuel current) i) =
        ((buildLayersAux H fuel current).getLastD current).headD [] := by
  intro fuel
  induction fuel with
  | zero => intro current hlen _ i hi; omega
  | succ f ih =>
    intro current hlen hcur i hi
    rw [buildLayersAux]
    by_cases hsmall : current.length ≤ 1
    · rw [if_pos hsmall]
      have hi0 : i = 0 := by omega
      subst hi0
      cases current with
      | nil => simp at hi
      | cons a t => simp [getProofAux, computeRoot_nil, List.getLastD]
    · rw [if_neg hsmall]
      push_neg at hsmall
      have hnl : (pairUp H current).length = (current.length + 1) / 2 :=
        pairUp_length H current
      have hi2 : i / 2 < (pairUp H current).length := by omega
      have hpair := pairUp_getElem? H current (i / 2)
      rw [List.getElem?_eq_getElem hi2] at hpair
      have hrest := ih (pairUp H current) (by omega) (pairUp_is32 H hH hcur) (i / 2) hi2
      rw [List.getLastD_cons]
      rcases Nat.even_or_odd i with he | ho
      · have hmod : i % 2 = 0 := Nat.even_iff.mp he
        have h2i : 2 * (i / 2) = i := by omega
        rw [getProofAux_step_even _ _ _ hmod, computeRoot_append]
        by_cases hlt : i + 1 < current.length
        · rw [if_pos hlt]
          rw [h2i, List.getElem?_eq_getElem hi, List.getElem?_eq_getElem hlt] at hpair
          have hv : computeRoot H current[i]
              [⟨bytesToHex (current.getD (i + 1) []), "right"⟩] =
              (pairUp H current)[i / 2] := by
            rw [computeRoot_cons, computeRoot_nil]
            unfold verifyStep
            rw [if_neg (by decide : ¬ ("right" : String) = "left")]
            simp only
            rw [List.getD_eq_getElem?_getD, List.getElem?_eq_getElem hlt]
            simp only [Option.getD_some]
            rw [hexToBytes_bytesToHex (hcur _ (List.getElem_mem hlt)).2]
            exact (Option.some.inj hpair).symm
          rw [hv]
          exact hrest
        · rw [if_neg hlt]
          rw [h2i, List.getElem?_eq_getElem hi,
            List.getElem?_eq_none (l := current) (by omega)] at hpair
          have hpr : (pairUp H current)[i / 2] = current[i] := Option.some.inj hpair
          rw [hpr] at hrest
          simpa [computeRoot_nil] using hrest
      · have hmod : i % 2 = 1 := Nat.odd_iff.mp ho
        have h2i : 2 * (i / 2) = i - 1 := by omega
        have him : i - 1 < current.length := by omega
        rw [getProofAux_step_odd _ _ _ hmod, computeRoot_append]
        rw [if_pos him]
        rw [h2i, (by omega : i - 1 + 1 = i),
          List.getElem?_eq_getElem him, List.getElem?_eq_getElem hi] at hpair
        have hv : computeRoot H current[i]
            [⟨bytesToHex (current.getD (i - 1) []), "left"⟩] =
            (pairUp H current)[i / 2] := by
          rw [computeRoot_cons, computeRoot_nil]
          unfold verifyStep
          rw [if_pos rfl]
          simp only
          rw [List.getD_eq_getElem?_getD, List.getElem?_eq_getElem him]
          simp only [Option.getD_some]
          rw [hexToBytes_bytesToHex (hcur _ (List.getElem_mem him)).2]
          exact (Option.some.inj hpair).symm
        rw [hv]
        exact hrest

theorem buildTree_of_ne_nil (H : List Nat → List Nat) {leaves : List (List Nat)}
    (hne : leaves ≠ []) :
    buildTree H leaves =
      ⟨((leaves :: buildLayers H leaves).getLastD []).head?, leaves :: buildLayers H leaves⟩ := by
  unfold buildTree
  have h : leaves.isEmpty = false := by
    cases leaves with
    | nil => exact absurd rfl hne
    | cons a t => rfl
  rw [h]
  simp

/-- Claim C1: For every non-empty list of 32-byte leaf hashes, `buildTree`
produces a root `r`, `verifyProof(leaves[i], getProof(layers, i), r)` holds for
every index `i`, and replacing the leaf by a different 32-byte value, or any
proof entry's hash by a different 32-byte value, makes `verifyProof` return
`false` — unless the replacement exhibits an outright SHA-256 collision
between two distinct 64-byte buffers (`IsCollision64 H`). -/
theorem c1_merkle_roundtrip_tamper (H : List Nat → List Nat) (hH : ∀ x, Is32 (H x))
    (leaves : List (List Nat)) (hne : leaves ≠ []) (hgood : ∀ l ∈ leaves, Is32 l)
    (i : Nat) (hi : i < leaves.length) :
    ∃ r, (buildTree H leaves).root = some r ∧
      verifyProof H leaves[i] (getProof (buildTree H leaves).layers i) r = true ∧
      (∀ leaf', Is32 leaf' → leaf' ≠ leaves[i] →
        verifyProof H leaf' (getProof (buildTree H leaves).layers i) r = false ∨
          IsCollision64 H) ∧
      (∀ j (hj : j < (getProof (buildTree H leaves).layers i).length) (h' : List Nat),
        Is32 h' → h' ≠ hexToBytes (getProof (buildTree H leaves).layers i)[j].hash →
        verifyProof H leaves[i]
          ((getProof (buildTree H leaves).layers i).set j
            ⟨bytesToHex h', (getProof (buildTree H leaves).layers i)[j].position⟩) r = false ∨
          IsCollision64 H) := by
  rw [buildTree_of_ne_nil H hne]
  simp only [getProof]
  have hlast : ((buildLayers H leaves).getLastD leaves).length = 1 :=
    buildLayersAux_last_length H leaves.length leaves hne le_rfl
  obtain ⟨a, ha⟩ := List.length_eq_one.mp hlast
  have hroot : ((leaves :: buildLayers H leaves).getLastD []).head? = some a := by
    rw [List.getLastD_cons, ha]; rfl
  have hl32 : Is32 leaves[i] := hgood _ (List.getElem_mem hi)
  have ha' : (buildLayersAux H leaves.length leaves).getLastD leaves = [a] := ha
  have hcompute : computeRoot H leaves[i] (getProofAux (leaves :: buildLayers H leaves) i) = a := by
    have h0 := computeRoot_getProofAux H hH leaves.length leaves le_rfl hgood i hi
    rw [ha'] at h0
    exact h0
  have hlayersgood : ∀ layer ∈ leaves :: buildLayers H leaves, ∀ x ∈ layer, Is32 x := by
    intro layer hl
    rcases List.mem_cons.mp hl with h | h
    · rw [h]; exact hgood
    · exact buildLayersAux_is32 H hH leaves.length leaves hgood layer h
  have hsib : ∀ st ∈ getProofAux (leaves :: buildLayers H leaves) i,
      Is32 (hexToBytes st.hash) :=
    getProofAux_sibling_is32 _ hlayersgood i
  have hA32 : Is32 a := hcompute ▸ computeRoot_is32 H hH hl32 _
  refine ⟨a, hroot, ?_, ?_, ?_⟩
  · show (bytesToHex (computeRoot H leaves[i] _) == bytesToHex a) = true
    rw [hcompute]
    exact beq_self_eq_true _
  · intro leaf' h32' hne'
    rcases computeRoot_ne H hH _ hsib h32' hl32 hne' with hno | hcol
    · refine Or.inl ?_
      show (bytesToHex (computeRoot H leaf' _) == bytesToHex a) = false
      rw [beq_eq_false_iff_ne]
      intro heq
      have hca : computeRoot H leaf' (getProofAux (leaves :: buildLayers H leaves) i) = a :=
        bytesToHex_inj (computeRoot_is32 H hH h32' _).2 hA32.2 heq
      exact hno (by rw [hca, hcompute])
    · exact Or.inr hcol
  · intro j hj h' h32' hneq
    have hc32 : Is32 (computeRoot H leaves[i]
        ((getProofAux (leaves :: buildLayers H leaves) i).take j)) :=
      computeRoot_is32 H hH hl32 _
    have hs32 : Is32 (hexToBytes (getProofAux (leaves :: buildLayers H leaves) i)[j].hash) :=
      hsib _ (List.getElem_mem hj)
    by_cases hdd : verifyStep H (computeRoot H leaves[i]
          ((getProofAux (leaves :: buildLayers H leaves) i).take j))
          (getProofAux (leaves :: buildLayers H leaves) i)[j] =
        verifyStep H (computeRoot H leaves[i]
          ((getProofAux (leaves :: buildLayers H leaves) i).take j))
          ⟨bytesToHex h', (getProofAux (leaves :: buildLayers H leaves) i)[j].position⟩
    · refine Or.inr ?_
      unfold verifyStep at hdd
      rw [(rfl : (⟨bytesToHex h',
            (getProofAux (leaves :: buildLayers H leaves) i)[j].position⟩ : ProofStep).hash
          = bytesToHex h'),
        (rfl : (⟨bytesToHex h',
            (getProofAux (leaves :: buildLayers H leaves) i)[j].position⟩ : ProofStep).position
          = (getProofAux (leaves :: buildLayers H leaves) i)[j].position),
        hexToBytes_bytesToHex h32'.2] at hdd
      by_cases hposl : (getProofAux (leaves :: buildLayers H leaves) i)[j].position = "left"
      · rw [if_pos hposl, if_pos hposl] at hdd
        exact hashNodes_collision_left H hs32 h32' hc32 (fun h => hneq h.symm) hdd
      · rw [if_neg hposl, if_neg hposl] at hdd
        exact hashNodes_collision_right H hc32 hs32 h32' (fun h => hneq h.symm) hdd
    · have hdropsib : ∀ s ∈ (getProofAux (leaves :: buildLayers H leaves) i).drop (j + 1),
          Is32 (hexToBytes s.hash) :=
        fun s hs => hsib s (List.drop_subset _ _ hs)
      have hd32 := verifyStep_is32 H hH (computeRoot H leaves[i]
        ((getProofAux (leaves :: buildLayers H leaves) i).take j))
        (getProofAux (leaves :: buildLayers H leaves) i)[j]
      have hd'32 := verifyStep_is32 H hH (computeRoot H leaves[i]
        ((getProofAux (leaves :: buildLayers H leaves) i).take j))
        ⟨bytesToHex h', (getProofAux (leaves :: buildLayers H leaves) i)[j].position⟩
      rcases computeRoot_ne H hH _ hdropsib hd'32 hd32 (fun h => hdd h.symm) with hno | hcol
      · refine Or.inl ?_
        have key : computeRoot H leaves[i] (getProofAux (leaves :: buildLayers H leaves) i) =
            computeRoot H (verifyStep H (computeRoot H leaves[i]
              ((getProofAux (leaves :: buildLayers H leaves) i).take j))
              (getProofAux (leaves :: buildLayers H leaves) i)[j])
              ((getProofAux (leaves :: buildLayers H leaves) i).drop (j + 1)) := by
          conv_lhs => rw [list_split_at (getProofAux (leaves :: buildLayers H leaves) i) j hj]
          rw [computeRoot_append, computeRoot_cons]
        have key' : computeRoot H leaves[i]
            ((getProofAux (leaves :: buildLayers H leaves) i).set j
              ⟨bytesToHex h', (getProofAux (leaves :: buildLayers H leaves) i)[j].position⟩) =
            computeRoot H (verifyStep H (computeRoot H leaves[i]
              ((getProofAux (leaves :: buildLayers H leaves) i).take j))
              ⟨bytesToHex h', (getProofAux (leaves :: buildLayers H leaves) i)[j].position⟩)
              ((getProofAux (leaves :: buildLayers H leaves) i).drop (j + 1)) := by
          rw [list_set_split (getProofAux (leaves :: buildLayers H leaves) i) j _ hj,
            computeRoot_append, computeRoot_cons]
        show (bytesToHex (computeRoot H leaves[i] _) == bytesToHex a) = false
        rw [beq_eq_false_iff_ne]
        intro heq
        apply hno
        have hval : computeRoot H leaves[i]
            ((getProofAux (leaves :: buildLayers H leaves) i).set j
              ⟨bytesToHex h', (getProofAux (leaves :: buildLayers H leaves) i)[j].position⟩) = a := by
          refine bytesToHex_inj ?_ hA32.2 heq
          rw [key']
          exact (computeRoot_is32 H hH hd'32 _).2
        rw [← key', hval, ← hcompute, key]
      · exact Or.inr hcol

/-- A verification step ignores the position hint: both branches compute the
content-ordered pair hash of the running value and the sibling. -/
theorem verifyStep_position_invariant (H : List Nat → List Nat) {x : List Nat}
    (hx : IsBytes x) (st : ProofStep) :
    verifyStep H x st = hashNodes H x (hexToBytes st.hash) := by
  unfold verifyStep
  split
  · exact hashNodes_comm H (hexToBytes_isBytes st.hash) hx
  · rfl

theorem computeRoot_position_independent (H : List Nat → List Nat)
    (hHB : ∀ x, IsBytes (H x)) :
    ∀ (p p' : List ProofStep), p.map ProofStep.hash = p'.map ProofStep.hash →
    ∀ {x : List Nat}, IsBytes x → computeRoot H x p = computeRoot H x p' := by
  intro p
  induction p with
  | nil =>
    intro p' hpp x hx
    have : p' = [] := by
      cases p' with
      | nil => rfl
      | cons st' rest' => simp at hpp
    rw [this]
  | cons st rest ih =>
    intro p' hpp x hx
    cases p' with
    | nil => simp at hpp
    | cons st' rest' =>
      simp only [List.map_cons, List.cons.injEq] at hpp
      rw [computeRoot_cons, computeRoot_cons,
        verifyStep_position_invariant H hx st, verifyStep_position_invariant H hx st',
        hpp.1]
      exact ih rest' hpp.2 (hHB _)

/-- Claim C2: Merkle pair hashing is content-ordered: `hashNodes(a, b) ==
hashNodes(b, a)` for byte arrays `a`, `b`, and `verifyProof` yields the same
result for a given leaf and sibling-hash sequence whatever the `left`/`right`
position hints in the proof entries say. -/
theorem c2_hashNodes_content_ordered (H : List Nat → List Nat)
    (hHB : ∀ x, IsBytes (H x)) (a b : List Nat) (ha : IsBytes a) (hb : IsBytes b)
    (leaf : List Nat) (hleaf : IsBytes leaf) (root : List Nat)
    (p p' : List ProofStep) (hpp : p.map ProofStep.hash = p'.map ProofStep.hash) :
    hashNodes H a b = hashNodes H b a ∧
      verifyProof H leaf p root = verifyProof H leaf p' root := by
  refine ⟨hashNodes_comm H ha hb, ?_⟩
  unfold verifyProof
  rw [computeRoot_position_independent H hHB p p' hpp hleaf]

/-- Claim C10: `buildTree` on the empty leaf sequence does not fail: it returns
`{root: null, layers: []}`. -/
theorem c10_buildTree_nil (H : List Nat → List Nat) :
    buildTree H [] = ⟨none, []⟩ := rfl

/-! ### Witnesses for the Merkle claims -/

/-- Constant 32-byte "hash" used to instantiate the abstract SHA-256 in
witnesses. -/
def hConst : List Nat → List Nat := fun _ => List.replicate 32 0

theorem hConst_is32 : ∀ x, Is32 (hConst x) := by
  intro x
  refine ⟨by simp [hConst], ?_⟩
  intro b hb
  simp [hConst] at hb
  omega

def leavesW : List (List Nat) := [List.replicate 32 0, List.replicate 32 1]

theorem c1_witness :
    (∀ x, Is32 (hConst x)) ∧ leavesW ≠ [] ∧ (∀ l ∈ leavesW, Is32 l) ∧
    0 < leavesW.length ∧
    (∃ r, (buildTree hConst leavesW).root = some r ∧
      verifyProof hConst leavesW[0] (getProof (buildTree hConst leavesW).layers 0) r = true ∧
      (∀ leaf', Is32 leaf' → leaf' ≠ leavesW[0] →
        verifyProof hConst leaf' (getProof (buildTree hConst leavesW).layers 0) r = false ∨
          IsCollision64 hConst) ∧
      (∀ j (hj : j < (getProof (buildTree hConst leavesW).layers 0).length) (h' : List Nat),
        Is32 h' → h' ≠ hexToBytes (getProof (buildTree hConst leavesW).layers 0)[j].hash →
        verifyProof hConst leavesW[0]
          ((getProof (buildTree hConst leavesW).layers 0).set j
            ⟨bytesToHex h', (getProof (buildTree hConst leavesW).layers 0)[j].position⟩) r
          = false ∨
          IsCollision64 hConst)) :=
  ⟨hConst_is32, by decide, by decide, by decide,
    c1_merkle_roundtrip_tamper hConst hConst_is32 leavesW (by decide) (by decide) 0 (by decide)⟩

theorem c2_witness :
    (∀ x, IsBytes (hConst x)) ∧ IsBytes [0] ∧ IsBytes [1] ∧ IsBytes ([] : List Nat) ∧
    ([(⟨[], "left"⟩ : ProofStep)].map ProofStep.hash =
      [(⟨[], "right"⟩ : ProofStep)].map ProofStep.hash) ∧
    (hashNodes hConst [0] [1] = hashNodes hConst [1] [0] ∧
      verifyProof hConst [] [⟨[], "left"⟩] [] = verifyProof hConst [] [⟨[], "right"⟩] []) :=
  ⟨fun x => (hConst_is32 x).2, by decide, by decide, by decide, by decide,
    c2_hashNodes_content_ordered hConst (fun x => (hConst_is32 x).2) [0] [1]
      (by decide) (by decide) [] (by decide) [] _ _ (by decide)⟩

/-! ## Email normalization (`email.toLowerCase().trim()`)

`String.prototype.toLowerCase` and `String.prototype.trim` are platform
primitives.  Modelled from the spec: `email` is normalized (lower-cased,
trimmed) before any cryptographic use.  Lower-casing is modelled on the ASCII
range (`A`-`Z`), and trimming strips the JS whitespace/line-terminator
characters from both ends. -/

theorem char_toNat_ofNat_valid {n : Nat} (h : n < 55296) : (Char.ofNat n).toNat = n := by
  unfold Char.ofNat
  rw [dif_pos (Or.inl h : n.isValidChar)]
  simp [Char.ofNatAux, Char.toNat, UInt32.toNat, BitVec.toNat_ofNatLt]

def asciiLower (c : Char) : Char :=
  if 65 ≤ c.toNat ∧ c.toNat ≤ 90 then Char.ofNat (c.toNat + 32) else c

def jsToLower (s : List Char) : List Char := s.map asciiLower

/-- The character set stripped by `String.prototype.trim`: TAB, LF, VT, FF,
CR, space, NBSP, LS, PS, BOM. -/
def isJsWhitespace (c : Char) : Bool :=
  c.toNat == 9 || c.toNat == 10 || c.toNat == 11 || c.toNat == 12 || c.toNat == 13 ||
  c.toNat == 32 || c.toNat == 160 || c.toNat == 8232 || c.toNat == 8233 || c.toNat == 65279

def jsTrim (s : List Char) : List Char :=
  ((s.dropWhile isJsWhitespace).reverse.dropWhile isJsWhitespace).reverse

/-- The email normalization applied throughout: `e.toLowerCase().trim()`. -/
def normalizeEmail (s : List Char) : List Char := jsTrim (jsToLower s)

theorem asciiLower_toNat (c : Char) :
    (asciiLower c).toNat = if 65 ≤ c.toNat ∧ c.toNat ≤ 90 then c.toNat + 32 else c.toNat := by
  unfold asciiLower
  split
  · rename_i h; exact char_toNat_ofNat_valid (by omega)
  · rfl

theorem asciiLower_idem (c : Char) : asciiLower (asciiLower c) = asciiLower c := by
  apply char_eq_of_toNat_eq
  simp only [asciiLower_toNat]
  split_ifs <;> omega

theorem isJsWhitespace_asciiLower (c : Char) :
    isJsWhitespace (asciiLower c) = isJsWhitespace c := by
  by_cases h : 65 ≤ c.toNat ∧ c.toNat ≤ 90
  · have ht : (asciiLower c).toNat = c.toNat + 32 := by rw [asciiLower_toNat, if_pos h]
    have h1 : isJsWhitespace (asciiLower c) = false := by
      simp [isJsWhitespace, ht]; omega
    have h2 : isJsWhitespace c = false := by
      simp [isJsWhitespace]; omega
    rw [h1, h2]
  · unfold asciiLower
    rw [if_neg h]

theorem dropWhile_map_asciiLower (l : List Char) :
    (l.map asciiLower).dropWhile isJsWhitespace =
      (l.dropWhile isJsWhitespace).map asciiLower := by
  induction l with
  | nil => rfl
  | cons c t ih =>
    simp only [List.map_cons, List.dropWhile_cons, isJsWhitespace_asciiLower]
    split <;> simp [*]

theorem jsToLower_jsTrim_comm (s : List Char) :
    jsToLower (jsTrim s) = jsTrim (jsToLower s) := by
  unfold jsToLower jsTrim
  rw [List.map_reverse, ← dropWhile_map_asciiLower, List.map_reverse,
    ← dropWhile_map_asciiLower]

theorem jsToLower_idem (s : List Char) : jsToLower (jsToLower s) = jsToLower s := by
  unfold jsToLower
  induction s with
  | nil => rfl
  | cons c t ih => simp only [List.map_cons, asciiLower_idem, List.cons.injEq, true_and]; exact ih

theorem dropWhile_head_false {α} (p : α → Bool) (l : List α) :
    ∀ a ∈ (l.dropWhile p).head?, p a = false := by
  induction l with
  | nil => simp
  | cons c t ih =>
    rw [List.dropWhile_cons]
    split
    · exact ih
    · rename_i h
      intro a ha
      simp only [List.head?_cons, Option.mem_def, Option.some.injEq] at ha
      subst ha
      simpa using h

theorem dropWhile_eq_self_of_head {α} (p : α → Bool) (l : List α)
    (h : ∀ a ∈ l.head?, p a = false) : l.dropWhile p = l := by
  cases l with
  | nil => rfl
  | cons c t =>
    rw [List.dropWhile_cons, if_neg]
    simp [h c (by simp)]

theorem dropWhile_idem {α} (p : α → Bool) (l : List α) :
    (l.dropWhile p).dropWhile p = l.dropWhile p :=
  dropWhile_eq_self_of_head p _ (dropWhile_head_false p l)

theorem getLast?_dropWhile {α} (p : α → Bool) (l : List α) (h : l.dropWhile p ≠ []) :
    (l.dropWhile p).getLast? = l.getLast? := by
  induction l with
  | nil => simp [List.dropWhile] at h
  | cons c t ih =>
    rw [List.dropWhile_cons] at h ⊢
    split
    · rename_i hc
      rw [if_pos hc] at h
      cases t with
      | nil => simp [List.dropWhile] at h
      | cons b t' =>
        rw [List.getLast?_cons_cons]
        exact ih h
    · rfl

/-- A trimmed string is left unchanged by another leading `dropWhile`. -/
theorem dropWhile_jsTrim (s : List Char) :
    (jsTrim s).dropWhile isJsWhitespace = jsTrim s := by
  unfold jsTrim
  apply dropWhile_eq_self_of_head
  intro a ha
  rw [List.head?_reverse] at ha
  by_cases hB : (s.dropWhile isJsWhitespace).reverse.dropWhile isJsWhitespace = []
  · rw [hB] at ha; simp at ha
  · rw [getLast?_dropWhile _ _ hB, List.getLast?_reverse] at ha
    exact dropWhile_head_false _ s a ha

theorem jsTrim_idem (s : List Char) : jsTrim (jsTrim s) = jsTrim s := by
  conv_lhs => rw [jsTrim]
  rw [dropWhile_jsTrim]
  conv_lhs => rw [jsTrim]
  rw [List.reverse_reverse, dropWhile_idem, ← jsTrim]

theorem normalizeEmail_idem (s : List Char) :
    normalizeEmail (normalizeEmail s) = normalizeEmail s := by
  unfold normalizeEmail
  rw [jsToLower_jsTrim_comm, jsToLower_idem, jsTrim_idem]

/-! ## Key derivation (`crypto.js deriveKeypair`) -/

/-- Source `crypto.js deriveKeypair`.  The platform PBKDF2
(`window.crypto.subtle.deriveBits`, SHA-256, 100000 iterations, 256 bits) and
TweetNaCl's `nacl.sign.keyPair.fromSeed` are external primitives, abstracted
as the parameters `kdf` and `fromSeed`; `TextEncoder().encode` is an injective
encoding, so salt and password are kept at the character level. -/
def deriveKeypair (kdf : List Char → List Char → List Nat)
    (fromSeed : List Nat → List Nat × List Nat)
    (email password : List Char) : List Nat × List Nat :=
  let normalizedEmail := jsTrim (jsToLower email)
  let salt := ("ots-sign-v1:").data ++ normalizedEmail
  fromSeed (kdf salt password)

/-- Claim C5: `deriveKeypair` is deterministic (it is a pure function of its
inputs — any two calls on identical inputs give identical results) and
normalization-invariant: deriving from any casing/whitespace variant of an
email equals deriving from the normalized (lower-cased, trimmed) email. -/
theorem c5_deriveKeypair_normalization (kdf : List Char → List Char → List Nat)
    (fromSeed : List Nat → List Nat × List Nat) (email password : List Char) :
    deriveKeypair kdf fromSeed email password =
      deriveKeypair kdf fromSeed (jsTrim (jsToLower email)) password ∧
    deriveKeypair kdf fromSeed email password =
      deriveKeypair kdf fromSeed email password := by
  refine ⟨?_, rfl⟩
  unfold deriveKeypair
  have h := normalizeEmail_idem email
  unfold normalizeEmail at h
  rw [h]

/-! ## Signature engine (`crypto.js sign` / `verify` over TweetNaCl) -/

/-- Modelled from the spec: the deterministic Ed25519 signature produced by the
holder of `seed` over exactly `message` (`nacl.sign`'s detached signature).
Idealized as an injective encoding of the pair into a 64-entry array, so that
a signature is valid for exactly one (key, message) pair. -/
def sigOf (seed message : List Nat) : List Nat :=
  Encodable.encode (seed, message) :: List.replicate 63 0

theorem sigOf_length (seed message : List Nat) : (sigOf seed message).length = 64 := by
  simp [sigOf]

theorem sigOf_inj {s s' m m' : List Nat} (h : sigOf s m = sigOf s' m') :
    s = s' ∧ m = m' := by
  unfold sigOf at h
  rw [List.cons.injEq] at h
  have hp : (s, m) = (s', m') := Encodable.encode_injective h.1
  rw [Prod.mk.injEq] at hp
  exact hp

/-- Modelled from the spec: `nacl.sign.keyPair.fromSeed` — the standard
seed-to-keypair expansion: `publicKey` is the (injective) expansion of the
32-byte seed, idealized as the seed itself; `secretKey` is the 64-byte
`seed ‖ publicKey` as in TweetNaCl. -/
def naclKeyPairFromSeed (seed : List Nat) : List Nat × List Nat :=
  (seed, seed ++ seed)

/-- Modelled from the spec: `nacl.sign(message, secretKey)` returns the signed
message `signature ‖ message`, the signature being by the seed half of the
secret key. -/
def naclSign (message secretKey : List Nat) : List Nat :=
  sigOf (secretKey.take 32) message ++ message

/-- Modelled from the spec: `nacl.sign.open(signedMessage, publicKey)` returns
the embedded message iff the first 64 bytes are a valid signature by the
holder of `publicKey` over exactly the rest; otherwise `null`. -/
def naclSignOpen (signedMessage publicKey : List Nat) : Option (List Nat) :=
  if signedMessage.take 64 = sigOf publicKey (signedMessage.drop 64) then
    some (signedMessage.drop 64)
  else none

/-- Source `crypto.js sign`: sign and keep the first 64 bytes (the signature). -/
def sign (message secretKey : List Nat) : List Nat :=
  (naclSign message secretKey).take 64

/-- Source `crypto.js verify`: rebuild the signed-message format `signature ‖ message`
and check that `nacl.sign.open` accepts it. -/
def verify (message signature publicKey : List Nat) : Bool :=
  (naclSignOpen (signature ++ message) publicKey).isSome

theorem sign_eq (m seed : List Nat) (hlen : seed.length = 32) :
    sign m (naclKeyPairFromSeed seed).2 = sigOf seed m := by
  unfold sign naclSign naclKeyPairFromSeed
  simp only
  rw [List.take_left' hlen, List.take_left' (sigOf_length seed m)]

/-- Claim C3: For every message and every keypair produced by the key
derivation, `verify(m, sign(m, sk), pk)` is `true`; and any change to the
message, to the 64-byte signature, or to the public key makes `verify` return
`false`. -/
theorem c3_sign_verify_roundtrip (kdf : List Char → List Char → List Nat)
    (hkdf : ∀ s p, (kdf s p).length = 32) (email password : List Char) (m : List Nat) :
    verify m (sign m (deriveKeypair kdf naclKeyPairFromSeed email password).2)
      (deriveKeypair kdf naclKeyPairFromSeed email password).1 = true ∧
    (∀ m', m' ≠ m →
      verify m' (sign m (deriveKeypair kdf naclKeyPairFromSeed email password).2)
        (deriveKeypair kdf naclKeyPairFromSeed email password).1 = false) ∧
    (∀ s', s'.length = 64 →
      s' ≠ sign m (deriveKeypair kdf naclKeyPairFromSeed email password).2 →
      verify m s' (deriveKeypair kdf naclKeyPairFromSeed email password).1 = false) ∧
    (∀ pk', pk' ≠ (deriveKeypair kdf naclKeyPairFromSeed email password).1 →
      verify m (sign m (deriveKeypair kdf naclKeyPairFromSeed email password).2)
        pk' = false) := by
  have hseed : (kdf (("ots-sign-v1:").data ++ jsTrim (jsToLower email)) password).length = 32 :=
    hkdf _ _
  set seed := kdf (("ots-sign-v1:").data ++ jsTrim (jsToLower email)) password with hseeddef
  have hkp : deriveKeypair kdf naclKeyPairFromSeed email password = (seed, seed ++ seed) := rfl
  rw [hkp]
  simp only
  have hsign : sign m (seed ++ seed) = sigOf seed m := by
    have := sign_eq m seed hseed
    unfold naclKeyPairFromSeed at this
    exact this
  rw [hsign]
  refine ⟨?_, ?_, ?_, ?_⟩
  · unfold verify naclSignOpen
    rw [List.take_left' (sigOf_length seed m), List.drop_left' (sigOf_length seed m),
      if_pos rfl]
    rfl
  · intro m' hne
    unfold verify naclSignOpen
    rw [List.take_left' (sigOf_length seed m), List.drop_left' (sigOf_length seed m),
      if_neg (fun h => hne ((sigOf_inj h).2.symm))]
    rfl
  · intro s' hlen' hne
    unfold verify naclSignOpen
    rw [List.take_left' hlen', List.drop_left' hlen', if_neg hne]
    rfl
  · intro pk' hne
    unfold verify naclSignOpen
    rw [List.take_left' (sigOf_length seed m), List.drop_left' (sigOf_length seed m),
      if_neg (fun h => hne ((sigOf_inj h).1.symm))]
    rfl

def kdfConst : List Char → List Char → List Nat := fun _ _ => List.replicate 32 0

theorem c3_witness :
    (∀ s p, (kdfConst s p).length = 32) ∧
    (verify [7] (sign [7] (deriveKeypair kdfConst naclKeyPairFromSeed [] []).2)
      (deriveKeypair kdfConst naclKeyPairFromSeed [] []).1 = true ∧
    (∀ m', m' ≠ [7] →
      verify m' (sign [7] (deriveKeypair kdfConst naclKeyPairFromSeed [] []).2)
        (deriveKeypair kdfConst naclKeyPairFromSeed [] []).1 = false) ∧
    (∀ s', s'.length = 64 →
      s' ≠ sign [7] (deriveKeypair kdfConst naclKeyPairFromSeed [] []).2 →
      verify [7] s' (deriveKeypair kdfConst naclKeyPairFromSeed [] []).1 = false) ∧
    (∀ pk', pk' ≠ (deriveKeypair kdfConst naclKeyPairFromSeed [] []).1 →
      verify [7] (sign [7] (deriveKeypair kdfConst naclKeyPairFromSeed [] []).2)
        pk' = false)) :=
  ⟨fun _ _ => by simp [kdfConst],
    c3_sign_verify_roundtrip kdfConst (fun _ _ => by simp [kdfConst]) [] [] [7]⟩

/-! ## Signing message codec (`crypto.js createSigningMessage`)

`JSON.stringify` on a literal object with string-valued fields emits the keys
in insertion order with no extra whitespace, escaping each string value
(`"` and `\` by backslash, the control characters below 0x20 by their short
escapes or `\u00xx`).  `TextEncoder().encode` is the injective UTF-8 encoding,
modelled as the code-point sequence. -/

/-- JS `JSON.stringify`'s escaping of a single string character. -/
def jsonEscapeChar (c : Char) : List Char :=
  if c = '"' then ['\\', '"']
  else if c = '\\' then ['\\', '\\']
  else if c.toNat < 32 then
    if c.toNat = 8 then ['\\', 'b']
    else if c.toNat = 9 then ['\\', 't']
    else if c.toNat = 10 then ['\\', 'n']
    else if c.toNat = 12 then ['\\', 'f']
    else if c.toNat = 13 then ['\\', 'r']
    else ['\\', 'u', '0', '0', Nat.digitChar (c.toNat / 16), Nat.digitChar (c.toNat % 16)]
  else [c]

def jsonEscape (s : List Char) : List Char := (s.map jsonEscapeChar).flatten

/-- Platform `TextEncoder().encode`, modelled as the (injective) code-point sequence. -/
def encodeText (s : List Char) : List Nat := s.map Char.toNat

/-- Source `crypto.js createSigningMessage`: the UTF-8 bytes of
`JSON.stringify(\x7b documentHash: bytesToHex(documentHash),
email: email.toLowerCase().trim(), timestamp, version: 'ots-sign-v1' \x7d)`. -/
def createSigningMessage (documentHash : List Nat) (email timestamp : List Char) :
    List Nat :=
  encodeText (
    ("\x7b\"documentHash\":\"").data ++ (jsonEscape (bytesToHex documentHash) ++
    (("\",\"email\":\"").data ++ (jsonEscape (jsTrim (jsToLower email)) ++
    (("\",\"timestamp\":\"").data ++ (jsonEscape timestamp ++
    ("\",\"version\":\"ots-sign-v1\"\x7d").data))))))

/-- A one-character decoder for JSON string escapes, inverse to
`jsonEscapeChar`: `none` on a closing quote. -/
def unescOne : List Char → Option (Char × List Char)
  | [] => none
  | c :: r =>
    if c = '"' then none
    else if c = '\\' then
      match r with
      | [] => none
      | e :: r2 =>
        if e = '"' then some ('"', r2)
        else if e = '\\' then some ('\\', r2)
        else if e = 'b' then some (Char.ofNat 8, r2)
        else if e = 't' then some (Char.ofNat 9, r2)
        else if e = 'n' then some (Char.ofNat 10, r2)
        else if e = 'f' then some (Char.ofNat 12, r2)
        else if e = 'r' then some (Char.ofNat 13, r2)
        else if e = 'u' then
          match r2 with
          | h1 :: h2 :: h3 :: h4 :: r3 =>
            match hexVal? h1, hexVal? h2, hexVal? h3, hexVal? h4 with
            | some v1, some v2, some v3, some v4 =>
              some (Char.ofNat (4096 * v1 + 256 * v2 + 16 * v3 + v4), r3)
            | _, _, _, _ => none
          | _ => none
        else none
    else some (c, r)

theorem jsonEscape_cons (c : Char) (cs : List Char) :
    jsonEscape (c :: cs) = jsonEscapeChar c ++ jsonEscape cs := by
  simp [jsonEscape]

theorem unescOne_escChar (c : Char) (r : List Char) :
    unescOne (jsonEscapeChar c ++ r) = some (c, r) := by
  by_cases h1 : c = '"'
  · subst h1; simp [jsonEscapeChar, unescOne]
  · by_cases h2 : c = '\\'
    · subst h2; simp [jsonEscapeChar, unescOne]
    · by_cases h3 : c.toNat < 32
      · have hshort : ∀ n : Nat, c.toNat = n → n < 55296 → c = Char.ofNat n := by
          intro n hn hv
          exact char_eq_of_toNat_eq (by rw [char_toNat_ofNat_valid hv, hn])
        by_cases h8 : c.toNat = 8
        · rw [jsonEscapeChar, if_neg h1, if_neg h2, if_pos h3, if_pos h8]
          simp [unescOne, hshort 8 h8 (by omega)]
        · by_cases h9 : c.toNat = 9
          · rw [jsonEscapeChar, if_neg h1, if_neg h2, if_pos h3, if_neg h8, if_pos h9]
            simp [unescOne, hshort 9 h9 (by omega)]
          · by_cases h10 : c.toNat = 10
            · rw [jsonEscapeChar, if_neg h1, if_neg h2, if_pos h3, if_neg h8, if_neg h9,
                if_pos h10]
              simp [unescOne, hshort 10 h10 (by omega)]
            · by_cases h12 : c.toNat = 12
              · rw [jsonEscapeChar, if_neg h1, if_neg h2, if_pos h3, if_neg h8, if_neg h9,
                  if_neg h10, if_pos h12]
                simp [unescOne, hshort 12 h12 (by omega)]
              · by_cases h13 : c.toNat = 13
                · rw [jsonEscapeChar, if_neg h1, if_neg h2, if_pos h3, if_neg h8, if_neg h9,
                    if_neg h10, if_neg h12, if_pos h13]
                  simp [unescOne, hshort 13 h13 (by omega)]
                · rw [jsonEscapeChar, if_neg h1, if_neg h2, if_pos h3, if_neg h8, if_neg h9,
                    if_neg h10, if_neg h12, if_neg h13]
                  have e0 : hexVal? '0' = some 0 := by decide
                  have ed1 : hexVal? (Nat.digitChar (c.toNat / 16)) = some (c.toNat / 16) :=
                    hexVal?_digitChar _ (by omega)
                  have ed2 : hexVal? (Nat.digitChar (c.toNat % 16)) = some (c.toNat % 16) :=
                    hexVal?_digitChar _ (by omega)
                  simp [unescOne, e0, ed1, ed2]
                  apply char_eq_of_toNat_eq
                  rw [char_toNat_ofNat_valid (by omega)]
                  omega
      · rw [jsonEscapeChar, if_neg h1, if_neg h2, if_neg h3]
        simp [unescOne, h1, h2]

theorem jsonEscape_quote_inj : ∀ (s s' rest rest' : List Char),
    jsonEscape s ++ '"' :: rest = jsonEscape s' ++ '"' :: rest' →
    s = s' ∧ rest = rest' := by
  intro s
  induction s with
  | nil =>
    intro s' rest rest' h
    cases s' with
    | nil => simpa [jsonEscape] using h
    | cons c' cs' =>
      exfalso
      have hL : unescOne (jsonEscape [] ++ '"' :: rest) = none := by
        simp [jsonEscape, unescOne]
      have hR : unescOne (jsonEscape (c' :: cs') ++ '"' :: rest') =
          some (c', jsonEscape cs' ++ '"' :: rest') := by
        rw [jsonEscape_cons, List.append_assoc]
        exact unescOne_escChar c' _
      rw [h, hR] at hL
      exact Option.noConfusion hL
  | cons c cs ih =>
    intro s' rest rest' h
    cases s' with
    | nil =>
      exfalso
      have hL : unescOne (jsonEscape (c :: cs) ++ '"' :: rest) =
          some (c, jsonEscape cs ++ '"' :: rest) := by
        rw [jsonEscape_cons, List.append_assoc]
        exact unescOne_escChar c _
      have hR : unescOne (jsonEscape [] ++ '"' :: rest') = none := by
        simp [jsonEscape, unescOne]
      rw [h, hR] at hL
      exact Option.noConfusion hL
    | cons c' cs' =>
      have hL : unescOne (jsonEscape (c :: cs) ++ '"' :: rest) =
          some (c, jsonEscape cs ++ '"' :: rest) := by
        rw [jsonEscape_cons, List.append_assoc]
        exact unescOne_escChar c _
      have hR : unescOne (jsonEscape (c' :: cs') ++ '"' :: rest') =
          some (c', jsonEscape cs' ++ '"' :: rest') := by
        rw [jsonEscape_cons, List.append_assoc]
        exact unescOne_escChar c' _
      rw [h, hR] at hL
      have hcc := Option.some.inj hL
      have hc : c' = c := congrArg Prod.fst hcc
      have htail : jsonEscape cs' ++ '"' :: rest' = jsonEscape cs ++ '"' :: rest :=
        congrArg Prod.snd hcc
      obtain ⟨hcs, hrest⟩ := ih cs' rest rest' htail.symm
      exact ⟨by rw [hc, hcs], hrest⟩

theorem encodeText_inj {s s' : List Char} (h : encodeText s = encodeText s') : s = s' := by
  induction s generalizing s' with
  | nil =>
    cases s' with
    | nil => rfl
    | cons c' t' => simp [encodeText] at h
  | cons c t ih =>
    cases s' with
    | nil => simp [encodeText] at h
    | cons c' t' =>
      simp only [encodeText, List.map_cons, List.cons.injEq] at h
      rw [char_eq_of_toNat_eq h.1, ih h.2]

/-- Claim C4: `createSigningMessage` is deterministic (the right-to-left
direction: equal document hash, normalized email and timestamp give the same
bytes) and injective (the left-to-right direction: no two triples differing in
documentHash, normalized email, or timestamp encode to the same byte string);
the fixed field order and the `ots-sign-v1` version literal are the definition
itself. -/
theorem c4_createSigningMessage_injective (d d' : List Nat) (hd : Is32 d) (hd' : Is32 d')
    (e e' t t' : List Char) :
    createSigningMessage d e t = createSigningMessage d' e' t' ↔
      (d = d' ∧ jsTrim (jsToLower e) = jsTrim (jsToLower e') ∧ t = t') := by
  have cons_inj_tail : ∀ {α : Type} {a b : α} {l m : List α}, a :: l = b :: m → l = m :=
    fun h => ((List.cons.injEq _ _ _ _) ▸ h : _ ∧ _).2
  constructor
  · intro h
    unfold createSigningMessage at h
    have h0 := encodeText_inj h
    iterate 17 replace h0 := cons_inj_tail h0
    obtain ⟨hdhex, h1⟩ := jsonEscape_quote_inj _ _ _ _ h0
    have hd_eq : d = d' := bytesToHex_inj hd.2 hd'.2 hdhex
    iterate 10 replace h1 := cons_inj_tail h1
    obtain ⟨hemail, h2⟩ := jsonEscape_quote_inj _ _ _ _ h1
    iterate 14 replace h2 := cons_inj_tail h2
    obtain ⟨ht, -⟩ := jsonEscape_quote_inj _ _ _ _ h2
    exact ⟨hd_eq, hemail, ht⟩
  · rintro ⟨h1, h2, h3⟩
    subst h1; subst h3
    unfold createSigningMessage
    rw [h2]

theorem c4_witness :
    Is32 (List.replicate 32 0) ∧
    (createSigningMessage (List.replicate 32 0) ['A'] ['t'] =
        createSigningMessage (List.replicate 32 0) [' ', 'a'] ['t'] ↔
      (List.replicate 32 0 = List.replicate 32 0 ∧
        jsTrim (jsToLower ['A']) = jsTrim (jsToLower [' ', 'a']) ∧
        (['t'] : List Char) = ['t'])) :=
  ⟨by decide,
    c4_createSigningMessage_injective (List.replicate 32 0) (List.replicate 32 0)
      (by decide) (by decide) ['A'] [' ', 'a'] ['t'] ['t']⟩

/-! ## Bundle model (`bundle.js`)

JS object fields can be absent (`undefined`), `null`, or carry a value;
`JsOpt` keeps the three apart (strict equality distinguishes `undefined` from
`null`, and `JSON.stringify` drops absent fields but serializes `null`).
`Date.now()`, `Math.random()` and `new Date().toISOString()` are
nondeterministic platform primitives: the generated id and timestamp are
passed in as explicit arguments. -/

inductive JsOpt (α : Type) where
  | undef : JsOpt α
  | null : JsOpt α
  | val : α → JsOpt α
deriving DecidableEq

def jsToLowerS (s : String) : String := ⟨jsToLower s.data⟩

def jsTrimS (s : String) : String := ⟨jsTrim s.data⟩

structure SignatureData where
  publicKey : String
  signatureImage : String
  cryptoSignature : List Nat
deriving DecidableEq

structure Signer where
  id : String
  name : String
  email : String
  color : String
  signed : Bool
  signedAt : JsOpt String
  publicKey : JsOpt String
  signatureImage : JsOpt String
  cryptoSignature : JsOpt (List Nat)
deriving DecidableEq

structure BundleField where
  id : String
  type : String
  signerId : String
  page : Int
  x : Int
  y : Int
  width : Int
  height : Int
  required : Bool
  value : JsOpt String
  signatureData : JsOpt String
deriving DecidableEq

structure DocumentInfo where
  name : String
  size : Int
  data : String
deriving DecidableEq

structure CompletedDoc where
  data : String
  completedAt : String
deriving DecidableEq

structure Bundle where
  version : String
  created : String
  modified : String
  document : DocumentInfo
  signers : List Signer
  fields : List BundleField
  status : String
  completedDocument : JsOpt CompletedDoc
  timestamp : JsOpt String
deriving DecidableEq

/-- Source `Bundle.create` (raw bytes already base64-encoded by the caller side). -/
def createBundle (name : String) (size : Int) (base64data : String) (now : String) : Bundle :=
  { version := "1.0"
    created := now
    modified := now
    document := ⟨name, size, base64data⟩
    signers := []
    fields := []
    status := "draft"
    completedDocument := JsOpt.null
    timestamp := JsOpt.null }

/-- The status decision tree of `Bundle.updateStatus`, as a pure function of
the signer list. -/
def statusOf (signers : List Signer) : String :=
  if signers.length = 0 then "draft"
  else if signers.all (fun s => s.signed) then "completed"
  else if signers.any (fun s => s.signed) then "in_progress"
  else "draft"

def updateStatus (b : Bundle) : Bundle :=
  { b with status := statusOf b.signers }

def signerColors : List String :=
  ["#e63946", "#457b9d", "#2a9d8f", "#e9c46a", "#9b5de5", "#f72585"]

/-- Source `Bundle.addSigner`: push a fresh signer (id from `Date.now`/`Math.random`,
passed in as `newId`); note the created object has no `cryptoSignature`
property at all. -/
def addSigner (b : Bundle) (name email newId : String) : Bundle × Signer :=
  let signer : Signer :=
    { id := newId
      name := name
      email := jsTrimS (jsToLowerS email)
      color := signerColors.getD (b.signers.length % signerColors.length) ""
      signed := false
      signedAt := JsOpt.null
      publicKey := JsOpt.null
      signatureImage := JsOpt.null
      cryptoSignature := JsOpt.undef }
  ({ b with signers := b.signers ++ [signer] }, signer)

/-- Source `Bundle.removeSigner`: drop the signer and cascade to their fields. -/
def removeSigner (b : Bundle) (signerId : String) : Bundle :=
  { b with
    signers := b.signers.filter (fun s => s.id != signerId)
    fields := b.fields.filter (fun f => f.signerId != signerId) }

def getDefaultWidth (type : String) : Int :=
  if type = "signature" then 200
  else if type = "initials" then 80
  else if type = "date" then 120
  else if type = "text" then 150
  else 100

def getDefaultHeight (type : String) : Int :=
  if type = "signature" then 60
  else if type = "initials" then 40
  else if type = "date" then 20
  else if type = "text" then 20
  else 30

structure FieldData where
  type : String
  signerId : String
  page : Int
  x : Int
  y : Int
  width : JsOpt Int
  height : JsOpt Int
  required : JsOpt Bool

/-- JS `v || default` on a numeric property: absent, `null` and `0` are
falsy. -/
def jsOrNum : JsOpt Int → Int → Int
  | .val w, d => if w = 0 then d else w
  | _, d => d

/-- Source `Bundle.addField` (id passed in, see `addSigner`). -/
def addField (b : Bundle) (fd : FieldData) (newId : String) : Bundle × BundleField :=
  let field : BundleField :=
    { id := newId
      type := fd.type
      signerId := fd.signerId
      page := fd.page
      x := fd.x
      y := fd.y
      width := jsOrNum fd.width (getDefaultWidth fd.type)
      height := jsOrNum fd.height (getDefaultHeight fd.type)
      required := fd.required != JsOpt.val false
      value := JsOpt.null
      signatureData := JsOpt.null }
  ({ b with fields := b.fields ++ [field] }, field)

def removeField (b : Bundle) (fieldId : String) : Bundle :=
  { b with fields := b.fields.filter (fun f => f.id != fieldId) }

/-- The properties `Object.assign(field, updates)` may overwrite: each is
either present in `updates` or kept. -/
structure FieldUpdates where
  id : Option String := none
  type : Option String := none
  signerId : Option String := none
  page : Option Int := none
  x : Option Int := none
  y : Option Int := none
  width : Option Int := none
  height : Option Int := none
  required : Option Bool := none
  value : Option (JsOpt String) := none
  signatureData : Option (JsOpt String) := none

def applyUpdates (f : BundleField) (u : FieldUpdates) : BundleField :=
  { id := u.id.getD f.id
    type := u.type.getD f.type
    signerId := u.signerId.getD f.signerId
    page := u.page.getD f.page
    x := u.x.getD f.x
    y := u.y.getD f.y
    width := u.width.getD f.width
    height := u.height.getD f.height
    required := u.required.getD f.required
    value := u.value.getD f.value
    signatureData := u.signatureData.getD f.signatureData }

/-- Source `Bundle.updateField`: `find` the first matching field and assign into it. -/
def updateFirstField (fieldId : String) (u : FieldUpdates) : List BundleField → List BundleField
  | [] => []
  | f :: rest =>
    if f.id = fieldId then applyUpdates f u :: rest
    else f :: updateFirstField fieldId u rest

def updateField (b : Bundle) (fieldId : String) (u : FieldUpdates) : Bundle :=
  { b with fields := updateFirstField fieldId u b.fields }

/-- The mutation `markSignerSigned` performs on the found signer. -/
def signSigner (s : Signer) (d : SignatureData) (now : String) : Signer :=
  { s with
    signed := true
    signedAt := JsOpt.val now
    publicKey := JsOpt.val d.publicKey
    signatureImage := JsOpt.val d.signatureImage
    cryptoSignature := JsOpt.val d.cryptoSignature }

def markFirstSigner (signerId : String) (d : SignatureData) (now : String) :
    List Signer → List Signer
  | [] => []
  | s :: rest =>
    if s.id = signerId then signSigner s d now :: rest
    else s :: markFirstSigner signerId d now rest

/-- Source `Bundle.markSignerSigned` before its final `updateStatus(bundle)` call. -/
def markSignerSignedCore (b : Bundle) (signerId : String) (d : SignatureData)
    (now : String) : Bundle :=
  { b with signers := markFirstSigner signerId d now b.signers }

def markSignerSigned (b : Bundle) (signerId : String) (d : SignatureData)
    (now : String) : Bundle :=
  updateStatus (markSignerSignedCore b signerId d now)

/-- Source `Bundle.isComplete`: every required field has a non-null value
(JS `f.value !== null`, so an `undefined` value would count as filled). -/
def isComplete (b : Bundle) : Bool :=
  (b.fields.filter (fun f => f.required)).all (fun f => f.value != JsOpt.null)

/-! ## Bundle loading (`Bundle.load`, claim C8) -/

structure ParsedDocument where
  data : Option String
deriving DecidableEq

/-- The projections of the `JSON.parse`d object that `load` inspects
(`version` and `document.data` are strings in the wire format; a missing
property is `none`). -/
structure ParsedBundle where
  version : Option String
  document : Option ParsedDocument
deriving DecidableEq

/-- JS truthiness of a possibly-absent string: absent (`undefined`), `null`
and the empty string are falsy. -/
def strFalsy : Option String → Bool
  | none => true
  | some s => s = ""

/-- Source `Bundle.load` after `JSON.parse`: throw on a falsy `version`, a falsy
`document`, or a falsy `document.data`; otherwise return the parsed object. -/
def load (b : ParsedBundle) : Except String ParsedBundle :=
  if strFalsy b.version then .error "Invalid bundle: missing version"
  else
    match b.document with
    | none => .error "Invalid bundle: missing document"
    | some doc =>
      if strFalsy doc.data then .error "Invalid bundle: missing document"
      else .ok b

/-! ### Status state machine (claims C6, C7) -/

theorem statusOf_draft_iff (l : List Signer) :
    statusOf l = "draft" ↔ (l = [] ∨ ∀ s ∈ l, s.signed = false) := by
  unfold statusOf
  split_ifs with h1 h2 h3
  · simp [List.length_eq_zero.mp h1]
  · refine iff_of_false (by decide) ?_
    rintro (hnil | hforall)
    · rw [hnil] at h1; exact h1 rfl
    · cases l with
      | nil => exact h1 rfl
      | cons x t =>
        have hx := List.all_eq_true.mp h2 x (by simp)
        rw [hforall x (by simp)] at hx
        exact Bool.noConfusion hx
  · refine iff_of_false (by decide) ?_
    obtain ⟨x, hxmem, hxs⟩ := List.any_eq_true.mp h3
    rintro (hnil | hforall)
    · rw [hnil] at hxmem; simp at hxmem
    · rw [hforall x hxmem] at hxs; exact Bool.noConfusion hxs
  · refine iff_of_true rfl (Or.inr ?_)
    intro s hs
    by_contra hcon
    exact h3 (List.any_eq_true.mpr ⟨s, hs, by simp at hcon; simp [hcon]⟩)

theorem statusOf_completed_iff (l : List Signer) :
    statusOf l = "completed" ↔ (l ≠ [] ∧ ∀ s ∈ l, s.signed = true) := by
  unfold statusOf
  split_ifs with h1 h2 h3
  · refine iff_of_false (by decide) ?_
    rintro ⟨hne, -⟩
    exact hne (List.length_eq_zero.mp h1)
  · refine iff_of_true rfl ⟨?_, List.all_eq_true.mp h2⟩
    intro hnil; rw [hnil] at h1; exact h1 rfl
  · refine iff_of_false (by decide) ?_
    rintro ⟨-, hforall⟩
    exact h2 (List.all_eq_true.mpr hforall)
  · refine iff_of_false (by decide) ?_
    rintro ⟨-, hforall⟩
    exact h2 (List.all_eq_true.mpr hforall)

theorem statusOf_in_progress_iff (l : List Signer) :
    statusOf l = "in_progress" ↔
      ((∃ s ∈ l, s.signed = true) ∧ ¬ ∀ s ∈ l, s.signed = true) := by
  unfold statusOf
  split_ifs with h1 h2 h3
  · refine iff_of_false (by decide) ?_
    rintro ⟨⟨s, hs, -⟩, -⟩
    rw [List.length_eq_zero.mp h1] at hs
    simp at hs
  · refine iff_of_false (by decide) ?_
    rintro ⟨-, hnall⟩
    exact hnall (List.all_eq_true.mp h2)
  · refine iff_of_true rfl ⟨List.any_eq_true.mp h3, ?_⟩
    intro hforall
    exact h2 (List.all_eq_true.mpr hforall)
  · refine iff_of_false (by decide) ?_
    rintro ⟨⟨s, hs, hsig⟩, -⟩
    exact h3 (List.any_eq_true.mpr ⟨s, hs, hsig⟩)

/-- Claim C6: After `updateStatus`, the bundle status is `draft` iff no signer
exists or none has signed, `completed` iff signers exist and all have signed,
`in_progress` iff some but not all have signed; and `markSignerSigned` is
exactly its signer mutation followed by this recomputation. -/
theorem c6_updateStatus_spec (b : Bundle) :
    ((updateStatus b).status = "draft" ↔
      (b.signers = [] ∨ ∀ s ∈ b.signers, s.signed = false)) ∧
    ((updateStatus b).status = "completed" ↔
      (b.signers ≠ [] ∧ ∀ s ∈ b.signers, s.signed = true)) ∧
    ((updateStatus b).status = "in_progress" ↔
      ((∃ s ∈ b.signers, s.signed = true) ∧ ¬ ∀ s ∈ b.signers, s.signed = true)) ∧
    (∀ signerId d now, markSignerSigned b signerId d now =
      updateStatus (markSignerSignedCore b signerId d now)) :=
  ⟨statusOf_draft_iff b.signers, statusOf_completed_iff b.signers,
    statusOf_in_progress_iff b.signers, fun _ _ _ => rfl⟩

/-! ### C7: reachable states where `status` diverges from the transition
function.  `addSigner` and `removeSigner` do not call `updateStatus`, so the
claimed invariant fails on a concrete reachable bundle. -/

def sigDataW : SignatureData := ⟨"ed25519:aa", "img", [1, 2]⟩

def bW0 : Bundle := createBundle "doc.pdf" 3 "QUJD" "2024-01-01T00:00:00.000Z"
def bW1 : Bundle := (addSigner bW0 "Alice" "a@x.com" "idA").1
def bW2 : Bundle := (addSigner bW1 "Bob" "b@x.com" "idB").1
def bW3 : Bundle := markSignerSigned bW2 "idA" sigDataW "2024-01-02T00:00:00.000Z"
def bW4 : Bundle := removeSigner bW3 "idB"

/-- Claim C7, counterexample: Reachable through `addSigner`, `addSigner`,
`markSignerSigned`, `removeSigner`: after removing the unsigned signer the
stored status is still `in_progress` while the transition function of the
remaining signer set gives `completed` — `removeSigner` does not recompute
the status. -/
theorem c7_counterexample :
    bW4.status = "in_progress" ∧ statusOf bW4.signers = "completed" ∧
    bW4.status ≠ statusOf bW4.signers := by decide

/-- Claim C7, amended: The invariant `status = statusOf signers` is established
by `markSignerSigned` (and `updateStatus`) and preserved by the field
operations, which touch neither the signer list nor the status; `addSigner`
and `removeSigner` do not recompute the status, so after them the invariant
only holds again once `updateStatus`/`markSignerSigned` runs. -/
theorem c7_status_invariant (b : Bundle) :
    (∀ signerId d now, (markSignerSigned b signerId d now).status =
      statusOf (markSignerSigned b signerId d now).signers) ∧
    ((updateStatus b).status = statusOf (updateStatus b).signers) ∧
    (b.status = statusOf b.signers →
      (∀ fd newId, (addField b fd newId).1.status =
        statusOf (addField b fd newId).1.signers) ∧
      (∀ fieldId, (removeField b fieldId).status =
        statusOf (removeField b fieldId).signers) ∧
      (∀ fieldId u, (updateField b fieldId u).status =
        statusOf (updateField b fieldId u).signers)) :=
  ⟨fun _ _ _ => rfl, rfl, fun h => ⟨fun _ _ => h, fun _ => h, fun _ _ => h⟩⟩

theorem c7_witness :
    (bW2.status = statusOf bW2.signers) ∧
    (∀ fieldId u, (updateField bW2 fieldId u).status =
      statusOf (updateField bW2 fieldId u).signers) :=
  ⟨by decide, ((c7_status_invariant bW2).2.2 (by decide)).2.2⟩

/-! ### C8: bundle loading -/

/-- Claim C8, counterexample: A parsed bundle whose `version` field is present
(the empty string) and whose document payload is present still fails to load:
JS truthiness rejects `""`, so "fails iff the version field is missing" is
wrong, as is "every other parsed bundle is returned unchanged". -/
theorem c8_counterexample :
    load ⟨some "", some ⟨some "x"⟩⟩ = .error "Invalid bundle: missing version" ∧
    (⟨some "", some ⟨some "x"⟩⟩ : ParsedBundle).version ≠ none ∧
    (⟨some "", some ⟨some "x"⟩⟩ : ParsedBundle).document ≠ none := by
  refine ⟨rfl, ?_, ?_⟩ <;> simp

/-- Claim C8, amended: `load` fails if and only if `version` is absent or falsy
(empty), or `document` is absent, or `document.data` is absent or falsy; on
every other parsed bundle it returns its argument unchanged and applies no
state. -/
theorem c8_load_spec (b : ParsedBundle) :
    (∀ b', load b = .ok b' → b' = b) ∧
    ((∃ e, load b = .error e) ↔
      (strFalsy b.version = true ∨ b.document = none ∨
        ∃ d, b.document = some d ∧ strFalsy d.data = true)) := by
  unfold load
  by_cases hv : strFalsy b.version
  · rw [if_pos hv]
    exact ⟨fun _ h => Except.noConfusion h, iff_of_true ⟨_, rfl⟩ (Or.inl hv)⟩
  · rw [if_neg hv]
    split
    · rename_i hdoc
      exact ⟨fun _ h => Except.noConfusion h,
        iff_of_true ⟨_, rfl⟩ (Or.inr (Or.inl hdoc))⟩
    · rename_i doc hdoc
      by_cases hd : strFalsy doc.data
      · rw [if_pos hd]
        exact ⟨fun _ h => Except.noConfusion h,
          iff_of_true ⟨_, rfl⟩ (Or.inr (Or.inr ⟨doc, hdoc, hd⟩))⟩
      · rw [if_neg hd]
        refine ⟨fun b' h => (Except.ok.inj h).symm, iff_of_false ?_ ?_⟩
        · rintro ⟨e, he⟩; exact Except.noConfusion he
        · rintro (h | h | ⟨d, hdd, hdf⟩)
          · exact hv h
          · rw [hdoc] at h; exact Option.noConfusion h
          · rw [hdoc] at hdd
            rw [Option.some.inj hdd] at hd
            exact hd hdf

theorem c8_witness :
    load ⟨some "1.0", some ⟨some "QUJD"⟩⟩ = .ok ⟨some "1.0", some ⟨some "QUJD"⟩⟩ ∧
    (∀ b', load ⟨some "1.0", some ⟨some "QUJD"⟩⟩ = .ok b' →
      b' = ⟨some "1.0", some ⟨some "QUJD"⟩⟩) :=
  ⟨rfl, (c8_load_spec _).1⟩

/-! ### C9: `addSigner` -/

/-- Claim C9, counterexample: The signer object created by `addSigner` has no
`cryptoSignature` property at all — it is `undefined`, not `null` (the object
literal sets `signedAt`, `publicKey` and `signatureImage` to `null` but omits
`cryptoSignature`), so the claim that all four are `null` fails. -/
theorem c9_counterexample :
    (addSigner bW0 "Alice" " A@X.com" "s1").2.cryptoSignature = JsOpt.undef ∧
    (JsOpt.undef : JsOpt (List Nat)) ≠ JsOpt.null := by
  exact ⟨rfl, by simp⟩

/-- Claim C9, amended: `addSigner` appends exactly one new signer whose email is
the lower-cased, trimmed input email, whose `signed` is `false`, whose
`signedAt`, `publicKey` and `signatureImage` are `null`, and whose
`cryptoSignature` is left `undefined` (absent), leaving the existing signers,
the fields and the status unchanged. -/
theorem c9_addSigner_spec (b : Bundle) (name email newId : String) :
    (addSigner b name email newId).1.signers =
      b.signers ++ [(addSigner b name email newId).2] ∧
    (addSigner b name email newId).1.fields = b.fields ∧
    (addSigner b name email newId).1.status = b.status ∧
    (addSigner b name email newId).2.id = newId ∧
    (addSigner b name email newId).2.name = name ∧
    (addSigner b name email newId).2.email = jsTrimS (jsToLowerS email) ∧
    (addSigner b name email newId).2.signed = false ∧
    (addSigner b name email newId).2.signedAt = JsOpt.null ∧
    (addSigner b name email newId).2.publicKey = JsOpt.null ∧
    (addSigner b name email newId).2.signatureImage = JsOpt.null ∧
    (addSigner b name email newId).2.cryptoSignature = JsOpt.undef :=
  ⟨rfl, rfl, rfl, rfl, rfl, rfl, rfl, rfl, rfl, rfl, rfl⟩

end Otisign
